import Mathlib

/-!
Verification development for the streaming log-analytics core implemented in
features.py of the InsightDataScienceChallenge repository: a top-N frequency
reporter (FeatureExtractor), a busiest-window finder
(MostActiveIntervalExtractor) and a brute-force login detector
(AccessViolationDetector).

Modelling conventions.

* Timestamps (Python datetime values) are natural numbers counting seconds;
  a timedelta of k seconds is the natural number k.  Every comparison of the
  form a - b > c that the source performs on datetimes is written b + c < a,
  which agrees with Python's signed subtraction for all a and b because every
  configured duration c is nonnegative.
* Table counts are integers (Python int).
* A heapq heap is modelled as a list kept sorted ascending in the
  lexicographic pair order: heappush is ordered insertion, heapreplace drops
  the head (which is the minimum, i.e. heap[0]) and inserts the new item.
  This is observationally equivalent to the binary-heap layout, because the
  source only ever reads heap[0] and full sorts of the heap contents.
* dict iteration order is modelled as insertion order; no settled claim
  depends on the iteration order.
* Python sorted with a comparison function cmp is modelled as a stable
  insertion sort by the total preorder cmp a b <= 0; sorted(xs, reverse=True)
  as a stable sort by the reversed lexicographic pair order.
* Orders are passed around as Bool-valued strict-less functions so that every
  definition evaluates inside the kernel.
-/

/-- Strict lexicographic comparison of char lists, by char code, as Python
compares strings. -/
def charListLt : List Char → List Char → Bool
  | [], [] => false
  | [], _ :: _ => true
  | _ :: _, [] => false
  | a :: as, b :: bs => if a < b then true else if b < a then false else charListLt as bs

/-- Python string comparison (strict). -/
def strLt (a b : String) : Bool := charListLt a.data b.data

/-- Integer strict comparison as a Bool. -/
def intLt (a b : Int) : Bool := decide (a < b)

/-- Natural-number strict comparison as a Bool. -/
def natLt (a b : Nat) : Bool := decide (a < b)

/-- Ordered insertion.  Models heapq.heappush on a heap represented as an
ascending list, and is the single step of the insertion sort that models
Python sorted. -/
def insertBy (le : α → α → Bool) (x : α) : List α → List α
  | [] => [x]
  | y :: ys => if le x y then x :: y :: ys else y :: insertBy le x ys

/-- Stable insertion sort; models Python sorted with a total comparison. -/
def insSortBy (le : α → α → Bool) : List α → List α
  | [] => []
  | x :: xs => insertBy le x (insSortBy le xs)

/-- features.py report_item_compare: order pairs by first component
descending, then by second component ascending.  ltA and ltB are the strict
orders of the two components. -/
def report_item_compare (ltA : α → α → Bool) (ltB : β → β → Bool)
    (left right : α × β) : Int :=
  if ltA right.1 left.1 then -1
  else if ltA left.1 right.1 then 1
  else if ltB left.2 right.2 then -1
  else if ltB right.2 left.2 then 1
  else 0

/-- The total preorder induced by report_item_compare: Python
sorted(xs, cmp) keeps a before b exactly when cmp a b is nonpositive. -/
def repLe (ltA : α → α → Bool) (ltB : β → β → Bool) (l r : α × β) : Bool :=
  decide (report_item_compare ltA ltB l r ≤ 0)

/-- Lexicographic pair comparison (nonstrict): the order Python uses on
tuples, hence the order of heapq heaps of pairs and of plain sorted on
pairs. -/
def lexLe (ltA : α → α → Bool) (ltB : β → β → Bool) (l r : α × β) : Bool :=
  if ltA l.1 r.1 then true
  else if ltA r.1 l.1 then false
  else !(ltB r.2 l.2)

/-- Association-list lookup with a default value, modelling read access to a
defaultdict. -/
def agetD (k : String) (d : α) : List (String × α) → α
  | [] => d
  | p :: rest => if p.1 = k then p.2 else agetD k d rest

/-- Association-list lookup, modelling dict lookup and the membership test. -/
def aget (k : String) : List (String × α) → Option α
  | [] => none
  | p :: rest => if p.1 = k then some p.2 else aget k rest

/-- Association-list update in place (append when the key is new), modelling
dict item assignment. -/
def aset (k : String) (v : α) : List (String × α) → List (String × α)
  | [] => [(k, v)]
  | p :: rest => if p.1 = k then (k, v) :: rest else p :: aset k v rest

/-- Association-list removal, modelling del on a dict (keys are unique in a
dict, so removing every matching entry is the same as removing the one). -/
def adel (k : String) (l : List (String × α)) : List (String × α) :=
  l.filter (fun p => decide (p.1 ≠ k))

/-- FeatureExtractor state: the configured report size and the
key-to-accumulated-count table (defaultdict(int)). -/
structure FeatureExtractor where
  count_to_report : Nat
  table : List (String × Int)
deriving DecidableEq

namespace FeatureExtractor

/-- process: table[metrics] += increment, a missing key reading as 0.
The source's call sites pass increment = 1 (the default) or a byte count
parsed from a digit string. -/
def process (e : FeatureExtractor) (metrics : String) (increment : Int) :
    FeatureExtractor :=
  { e with table := aset metrics (agetD metrics 0 e.table + increment) e.table }

/-- top_elements_report: when the table has fewer distinct keys than
count_to_report, sort all (count, key) pairs descending; otherwise seed a
min-heap with the first count_to_report entries, replace its minimum by every
later entry with a larger count, and sort the heap by report_item_compare. -/
def top_elements_report (e : FeatureExtractor) : List (Int × String) :=
  if e.table.length < e.count_to_report then
    insSortBy (fun l r => lexLe intLt strLt r l) (e.table.map (fun p => (p.2, p.1)))
  else
    let seeded := (e.table.take e.count_to_report).foldl
      (fun h p => insertBy (lexLe intLt strLt) (p.2, p.1) h) []
    let heap := (e.table.drop e.count_to_report).foldl
      (fun h p =>
        match h with
        | [] => h
          -- Python reads heap_arr[0] here and raises IndexError; this branch
          -- is reachable only when count_to_report = 0, a configuration the
          -- spec has the driver reject before construction.
        | top :: rest =>
          if top.1 < p.2 then insertBy (lexLe intLt strLt) (p.2, p.1) rest
          else top :: rest)
      seeded
    insSortBy (repLe intLt strLt) heap

/-- The Python method top_elements_report only reads self.table and assigns
no attribute of self; as a state-threaded call it returns the state
unchanged. -/
def top_elements_report_call (e : FeatureExtractor) :
    List (Int × String) × FeatureExtractor :=
  (e.top_elements_report, e)

/-- Folding process over a list of (key, increment) operations. -/
def run (e : FeatureExtractor) (ops : List (String × Int)) : FeatureExtractor :=
  ops.foldl (fun a p => a.process p.1 p.2) e

end FeatureExtractor

/-- MostActiveIntervalExtractor state: the configured report size, the window
duration in seconds, the min-heap of (count, window-start) candidates, the
ordered history of timestamps at or after the current window start, and the
current window start (None before the first timestamp). -/
structure MostActiveIntervalExtractor where
  count_to_report : Nat
  interval : Nat
  timestamp_heap : List (Nat × Nat)
  request_history : List Nat
  start_time : Option Nat
deriving DecidableEq

namespace MostActiveIntervalExtractor

/-- The candidate pair (count, window start) that move_interval records:
the current history length and the current window start. -/
def candidate (s : MostActiveIntervalExtractor) : Nat × Nat :=
  (s.request_history.length, s.start_time.getD 0)

/-- move_interval: push (len(request_history), start_time) onto the candidate
heap when it has fewer than count_to_report entries, otherwise replace the
heap minimum when it is smaller; then advance start_time by one second and
evict from the front of the history every timestamp before the new start. -/
def move_interval (s : MostActiveIntervalExtractor) : MostActiveIntervalExtractor :=
  match s.start_time with
  | none => s
    -- Unreachable from the API: process sets start_time before any
    -- move_interval call can happen (Python would fail on None arithmetic).
  | some w =>
    let num := s.request_history.length
    let heap :=
      if s.timestamp_heap.length < s.count_to_report then
        insertBy (lexLe natLt natLt) (num, w) s.timestamp_heap
      else
        match s.timestamp_heap with
        | [] => s.timestamp_heap
          -- Python reads timestamp_heap[0] here and raises IndexError;
          -- reachable only with count_to_report = 0, rejected configuration.
        | top :: rest =>
          if top.1 < num then insertBy (lexLe natLt natLt) (num, w) rest
          else top :: rest
    { s with timestamp_heap := heap,
             start_time := some (w + 1),
             request_history := s.request_history.dropWhile (fun t => decide (t < w + 1)) }

/-- One structural presentation of the while loop of process: as long as
timestamp - start_time > interval, call move_interval, recording the
candidate pair of each call.  The fuel argument only bounds the recursion
depth; it is never the reason the loop stops, because advanceT below passes
ts - start_time and every iteration both consumes one unit of fuel and
raises start_time by exactly one second, keeping fuel at least ts -
start_time, which is positive whenever the guard holds. -/
def advanceGo (ts : Nat) : Nat → MostActiveIntervalExtractor →
    MostActiveIntervalExtractor × List (Nat × Nat)
  | 0, s => (s, [])
  | fuel + 1, s =>
    match s.start_time with
    | none => (s, [])
    | some w =>
      if w + s.interval < ts then
        let p := advanceGo ts fuel s.move_interval
        (p.1, s.candidate :: p.2)
      else (s, [])

/-- The while loop of process: as long as timestamp - start_time > interval,
call move_interval.  Returns the final state together with the list of
candidate pairs recorded by the move_interval calls, in order. -/
def advanceT (ts : Nat) (s : MostActiveIntervalExtractor) :
    MostActiveIntervalExtractor × List (Nat × Nat) :=
  advanceGo ts (ts - s.start_time.getD ts) s

/-- process with the trace of candidates recorded by its window advances:
set start_time on the first call, run the advancing while loop, then append
the timestamp to the history. -/
def processT (ts : Nat) (s : MostActiveIntervalExtractor) :
    MostActiveIntervalExtractor × List (Nat × Nat) :=
  let s0 := match s.start_time with
            | none => { s with start_time := some ts }
            | some _ => s
  let p := advanceT ts s0
  ({ p.1 with request_history := p.1.request_history ++ [ts] }, p.2)

/-- process (state part). -/
def process (ts : Nat) (s : MostActiveIntervalExtractor) :
    MostActiveIntervalExtractor :=
  (processT ts s).1

/-- The draining for loop of most_active_intervals: up to n iterations,
stopping as soon as the history is empty, each iteration one move_interval;
with the trace of recorded candidates. -/
def drainT : Nat → MostActiveIntervalExtractor →
    MostActiveIntervalExtractor × List (Nat × Nat)
  | 0, s => (s, [])
  | n + 1, s =>
    if s.request_history = [] then (s, [])
    else
      let p := drainT n s.move_interval
      (p.1, s.candidate :: p.2)

/-- most_active_intervals: drain up to count_to_report further windows, then
return the candidate heap sorted by report_item_compare.  The method mutates
self, so it returns the new state as well. -/
def most_active_intervals (s : MostActiveIntervalExtractor) :
    List (Nat × Nat) × MostActiveIntervalExtractor :=
  let p := drainT s.count_to_report s
  (insSortBy (repLe natLt natLt) p.1.timestamp_heap, p.1)

/-- Feeding a timestamp stream to process, tagging every recorded candidate
with the list of timestamps already processed before the call that recorded
it. -/
def runT (s : MostActiveIntervalExtractor) (fed : List Nat) :
    List Nat → MostActiveIntervalExtractor × List (Nat × Nat × List Nat)
  | [] => (s, [])
  | ts :: rest =>
    let p := processT ts s
    let q := runT p.1 (fed ++ [ts]) rest
    (q.1, p.2.map (fun c => (c.1, c.2, fed)) ++ q.2)

/-- A fresh extractor, as constructed by __init__. -/
def init (count_to_report interval : Nat) : MostActiveIntervalExtractor :=
  ⟨count_to_report, interval, [], [], none⟩

/-- The state after feeding a whole timestamp stream to a fresh extractor. -/
def feed (count_to_report interval : Nat) (stream : List Nat) :
    MostActiveIntervalExtractor :=
  (runT (init count_to_report interval) [] stream).1

/-- All candidates recorded while feeding a whole stream to a fresh extractor
and then draining via most_active_intervals, each tagged with the timestamps
already processed when it was recorded. -/
def runCandidates (count_to_report interval : Nat) (stream : List Nat) :
    List (Nat × Nat × List Nat) :=
  let p := runT (init count_to_report interval) [] stream
  let q := drainT count_to_report p.1
  p.2 ++ q.2.map (fun c => (c.1, c.2, stream))

/-- The run invariant: whenever the window start is set, the history holds
exactly the fed timestamps at or after it, and every history entry is at most
one window duration past the start. -/
def InvC (fed : List Nat) (s : MostActiveIntervalExtractor) : Prop :=
  ∀ w, s.start_time = some w →
    s.request_history = fed.filter (fun t => decide (w ≤ t))
    ∧ ∀ t ∈ s.request_history, t ≤ w + s.interval

/-- The full run invariant: InvC together with the facts that the window
start is unset only before the first timestamp and otherwise does not exceed
some fed timestamp. -/
def StateOk (fed : List Nat) (s : MostActiveIntervalExtractor) : Prop :=
  InvC fed s
  ∧ (s.start_time = none → fed = [] ∧ s.request_history = [])
  ∧ (∀ w, s.start_time = some w → ∃ t ∈ fed, w ≤ t)

/-- The heap root (heap[0]) already counts at least as many events as the
current history holds, so no further drain iteration can modify the heap. -/
def RootGe (s : MostActiveIntervalExtractor) : Prop :=
  ∀ top rest, s.timestamp_heap = top :: rest →
    s.request_history.length ≤ top.1

/-- The number of heap entries whose count is below the current history
length: the entries a later drain candidate could still displace. -/
def Beat (s : MostActiveIntervalExtractor) : Nat :=
  s.timestamp_heap.countP (fun p => decide (p.1 < s.request_history.length))

/-- Invariant of the draining loop with r iterations left to run. -/
def DrainInv (K r : Nat) (s : MostActiveIntervalExtractor) : Prop :=
  s.count_to_report = K
  ∧ s.timestamp_heap.length ≤ K
  ∧ K ≤ s.timestamp_heap.length + r
  ∧ (RootGe s ∨ Beat s + (K - s.timestamp_heap.length) ≤ r)

end MostActiveIntervalExtractor

/-- AccessViolationDetector state: the three configured parameters, the
per-host list of recent failed-login timestamps (defaultdict(list)) and the
per-host block start time. -/
structure AccessViolationDetector where
  max_login_attempts : Nat
  time_interval : Nat
  access_block_interval : Nat
  failed_login_counter : List (String × List Nat)
  blocked_hosts : List (String × Nat)
deriving DecidableEq

namespace AccessViolationDetector

/-- process: if the host is blocked, unblock and allow when the block has
expired (timestamp - block_time > access_block_interval), otherwise deny
without further processing.  Otherwise, on reply 401 append the timestamp to
the host's failure list, evict entries older than time_interval, and block
the host (still allowing this record) when max_login_attempts is reached; on
reply 200 clear the failure list; any other reply changes nothing. -/
def process (d : AccessViolationDetector) (host : String) (ts : Nat)
    (reply_code : Nat) : Bool × AccessViolationDetector :=
  match aget host d.blocked_hosts with
  | some block_time =>
    if block_time + d.access_block_interval < ts then
      (true, { d with blocked_hosts := adel host d.blocked_hosts })
    else
      (false, d)
  | none =>
    if reply_code = 401 then
      let failed_attempts := agetD host [] d.failed_login_counter
      let failed_attempts := failed_attempts ++ [ts]
      let failed_attempts :=
        failed_attempts.dropWhile (fun t0 => decide (t0 + d.time_interval < ts))
      let d1 := { d with
        failed_login_counter := aset host failed_attempts d.failed_login_counter }
      if d.max_login_attempts ≤ failed_attempts.length then
        (true, { d1 with blocked_hosts := aset host ts d1.blocked_hosts })
      else
        (true, d1)
    else if reply_code = 200 then
      (true, { d with
        failed_login_counter :=
          match aget host d.failed_login_counter with
          | some _ => aset host [] d.failed_login_counter
          | none => d.failed_login_counter })
    else
      (true, d)

/-- A fresh detector, as constructed by __init__. -/
def init (max_login_attempts time_interval access_block_interval : Nat) :
    AccessViolationDetector :=
  ⟨max_login_attempts, time_interval, access_block_interval, [], []⟩

/-- Feeding a sequence of (host, timestamp, reply_code) records to process,
collecting the allowed/blocked decisions. -/
def processSeq (d : AccessViolationDetector) :
    List (String × Nat × Nat) → List Bool × AccessViolationDetector
  | [] => ([], d)
  | r :: rest =>
    let p := d.process r.1 r.2.1 r.2.2
    let q := p.2.processSeq rest
    (p.1 :: q.1, q.2)

end AccessViolationDetector

/-! Helper lemmas. -/

theorem aget_adel (k : String) (l : List (String × α)) : aget k (adel k l) = none := by
  induction l with
  | nil => rfl
  | cons p rest ih =>
    by_cases h : p.1 = k
    · simpa [adel, List.filter_cons, h] using ih
    · simpa [adel, aget, List.filter_cons, h] using ih

theorem AccessViolationDetector.process_blocked {d : AccessViolationDetector}
    {host : String} {bt : Nat} (ts reply : Nat)
    (hb : aget host d.blocked_hosts = some bt) :
    d.process host ts reply =
      if bt + d.access_block_interval < ts then
        (true, { d with blocked_hosts := adel host d.blocked_hosts })
      else (false, d) := by
  unfold AccessViolationDetector.process
  rw [hb]

theorem AccessViolationDetector.process_unblocked_allowed
    {d : AccessViolationDetector} {host : String} (ts reply : Nat)
    (hb : aget host d.blocked_hosts = none) :
    (d.process host ts reply).1 = true := by
  unfold AccessViolationDetector.process
  rw [hb]
  dsimp only
  split_ifs <;> rfl

/-! Claim theorems start here (interleaved with their remaining helpers). -/

/-- C1 (code bug witness): the two selection paths of top_elements_report
order equal-count entries inconsistently.  With count_to_report = 3 and the
two keys a and b both at count 1, the direct-sort path puts the
lexicographically larger key b first; with count_to_report = 2 and keys
a, b at count 1 and c at count 0, the heap path puts the smaller key a
first.  The spec requires the ascending (smaller-key-first) order on both
paths. -/
theorem C1_tiebreak_paths_eval :
    (FeatureExtractor.mk 3 [("a", 1), ("b", 1)]).top_elements_report
      = [(1, "b"), (1, "a")]
    ∧ (FeatureExtractor.mk 2 [("a", 1), ("b", 1), ("c", 0)]).top_elements_report
      = [(1, "a"), (1, "b")]
    ∧ strLt "a" "b" = true := by decide

/-- C3 counterexample: feeding the timestamp multiset exactly as listed in
the spec (four events at t+0, one each at t+2, t+3, t+4, two each at t+5 and
t+6, with base t = 0) to a fresh extractor with duration 3600 and
count_to_report 2 makes most_active_intervals return (11, t+0) and (7, t+1),
not the claimed (10, t+0) and (9, t+1). -/
theorem C3_spec_multiset_counterexample :
    (MostActiveIntervalExtractor.most_active_intervals
      (MostActiveIntervalExtractor.feed 2 3600 [0, 0, 0, 0, 2, 3, 4, 5, 5, 6, 6])).1
      = [(11, 0), (7, 1)]
    ∧ [(11, 0), (7, 1)] ≠ [((10 : Nat), (0 : Nat)), (9, 1)] := by decide

/-- C3 amended: on the multiset as listed in the spec (11 events, none at
t+1) the report is (11, t+0) and (7, t+1); the claimed output (10, t+0) then
(9, t+1) is produced by the repository test's actual 10-event multiset,
timestamps t+0, t+5, t+8, t+10, t+11, t+12, t+13, t+13, t+14, t+14 with base
t = 1. -/
theorem C3_amended_eval :
    (MostActiveIntervalExtractor.most_active_intervals
      (MostActiveIntervalExtractor.feed 2 3600 [0, 0, 0, 0, 2, 3, 4, 5, 5, 6, 6])).1
      = [(11, 0), (7, 1)]
    ∧ (MostActiveIntervalExtractor.most_active_intervals
      (MostActiveIntervalExtractor.feed 2 3600 [1, 6, 9, 11, 12, 13, 14, 14, 15, 15])).1
      = [(10, 1), (9, 2)] := by decide

/-- C4: process returns not-allowed exactly when the host is blocked at the
start of the call and the block has not yet expired (timestamp minus
blocked-since at most block_duration); an expired block is cleared and the
record allowed; any record of an unblocked host (in particular the one whose
failed login crosses the threshold) is allowed. -/
theorem C4_blocked_iff (d : AccessViolationDetector) (host : String)
    (ts reply : Nat) :
    ((d.process host ts reply).1 = false ↔
      ∃ bt, aget host d.blocked_hosts = some bt ∧ ts ≤ bt + d.access_block_interval)
    ∧ (∀ bt, aget host d.blocked_hosts = some bt →
        bt + d.access_block_interval < ts →
        (d.process host ts reply).1 = true
        ∧ aget host (d.process host ts reply).2.blocked_hosts = none)
    ∧ (aget host d.blocked_hosts = none → (d.process host ts reply).1 = true) := by
  refine ⟨⟨?_, ?_⟩, ?_, ?_⟩
  · intro hf
    cases hb : aget host d.blocked_hosts with
    | none =>
      rw [AccessViolationDetector.process_unblocked_allowed ts reply hb] at hf
      cases hf
    | some bt =>
      refine ⟨bt, rfl, ?_⟩
      by_cases hexp : bt + d.access_block_interval < ts
      · rw [AccessViolationDetector.process_blocked ts reply hb, if_pos hexp] at hf
        cases hf
      · omega
  · rintro ⟨bt, hb, hle⟩
    have hexp : ¬ bt + d.access_block_interval < ts := by omega
    rw [AccessViolationDetector.process_blocked ts reply hb, if_neg hexp]
  · intro bt hb hlt
    rw [AccessViolationDetector.process_blocked ts reply hb, if_pos hlt]
    exact ⟨rfl, aget_adel host d.blocked_hosts⟩
  · intro hb
    exact AccessViolationDetector.process_unblocked_allowed ts reply hb

/-- C4 witness: a concrete still-blocked host is denied. -/
theorem C4_blocked_iff_witness :
    ((AccessViolationDetector.mk 3 20 300 [] [("h", 10)]).process "h" 20 404).1
      = false :=
  (C4_blocked_iff (AccessViolationDetector.mk 3 20 300 [] [("h", 10)])
      "h" 20 404).1.mpr ⟨10, by decide, by decide⟩

theorem agetD_aset (k m : String) (v dflt : α) (l : List (String × α)) :
    agetD k dflt (aset m v l) = if m = k then v else agetD k dflt l := by
  induction l with
  | nil =>
    by_cases h : m = k <;> simp [aset, agetD, h]
  | cons p rest ih =>
    by_cases hp : p.1 = m
    · by_cases h : m = k
      · simp [aset, agetD, hp, h]
      · have hpk : ¬ p.1 = k := by rw [hp]; exact h
        simp [aset, agetD, hp, h, hpk]
    · by_cases hpk : p.1 = k
      · by_cases h : m = k
        · have : p.1 = m := by rw [hpk, h]
          exact absurd this hp
        · have hkm : ¬ k = m := fun he => h he.symm
          simp [aset, agetD, hp, hpk, h, hkm]
      · simp [aset, agetD, hp, hpk, ih]

theorem FeatureExtractor.process_agetD (e : FeatureExtractor) (m k : String)
    (inc : Int) :
    agetD k 0 (e.process m inc).table
      = agetD k 0 e.table + (if m = k then inc else 0) := by
  unfold FeatureExtractor.process
  dsimp only
  rw [agetD_aset]
  by_cases h : m = k
  · subst h
    simp
  · simp [h]

theorem FeatureExtractor.run_cons (e : FeatureExtractor) (p : String × Int)
    (rest : List (String × Int)) :
    e.run (p :: rest) = (e.process p.1 p.2).run rest := rfl

theorem FeatureExtractor.run_append (e : FeatureExtractor)
    (l1 l2 : List (String × Int)) :
    e.run (l1 ++ l2) = (e.run l1).run l2 := by
  unfold FeatureExtractor.run
  rw [List.foldl_append]

theorem FeatureExtractor.run_agetD_mono (e : FeatureExtractor)
    (ops : List (String × Int)) (h : ∀ p ∈ ops, 0 ≤ p.2) (k : String) :
    agetD k 0 e.table ≤ agetD k 0 (e.run ops).table := by
  induction ops generalizing e with
  | nil => exact le_refl _
  | cons p rest ih =>
    have h1 : (0 : Int) ≤ p.2 := h p (List.mem_cons_self p rest)
    have step : agetD k 0 e.table ≤ agetD k 0 (e.process p.1 p.2).table := by
      rw [FeatureExtractor.process_agetD]
      by_cases hm : p.1 = k <;> simp [hm] <;> omega
    rw [FeatureExtractor.run_cons]
    exact le_trans step (ih _ (fun q hq => h q (List.mem_cons_of_mem p hq)))

/-- C6: starting from the empty table, if every increment passed to process is
nonnegative (true at both call sites: the default 1 and a byte count parsed
from digits), then after any prefix of the operations every key's count is
nonnegative, started at 0, and never decreases at the next operation. -/
theorem C6_counts_monotone (cfg : Nat) (ops : List (String × Int))
    (h : ∀ p ∈ ops, 0 ≤ p.2) (k : String) (n : Nat) :
    agetD k 0 ((FeatureExtractor.mk cfg []).run (ops.take 0)).table = 0
    ∧ 0 ≤ agetD k 0 ((FeatureExtractor.mk cfg []).run (ops.take n)).table
    ∧ agetD k 0 ((FeatureExtractor.mk cfg []).run (ops.take n)).table
      ≤ agetD k 0 ((FeatureExtractor.mk cfg []).run (ops.take (n + 1))).table := by
  have hsub : ∀ m, ∀ p ∈ ops.take m, (0 : Int) ≤ p.2 :=
    fun m p hp => h p (List.take_subset m ops hp)
  refine ⟨rfl, ?_, ?_⟩
  · simpa [agetD] using
      FeatureExtractor.run_agetD_mono (FeatureExtractor.mk cfg []) (ops.take n)
        (hsub n) k
  · rw [List.take_succ, FeatureExtractor.run_append]
    cases hg : ops[n]? with
    | none => exact le_refl _
    | some p =>
      have hp : (0 : Int) ≤ p.2 := h p (List.getElem?_mem hg)
      have : ((FeatureExtractor.mk cfg []).run (ops.take n)).run (some p).toList
          = ((FeatureExtractor.mk cfg []).run (ops.take n)).process p.1 p.2 := rfl
      rw [this, FeatureExtractor.process_agetD]
      by_cases hm : p.1 = k <;> simp [hm] <;> omega

/-- C6 witness: a concrete nonnegative operation list. -/
theorem C6_counts_monotone_witness :
    (∀ p ∈ [("a", (2 : Int)), ("b", 1), ("a", 3)], 0 ≤ p.2)
    ∧ (agetD "a" 0 ((FeatureExtractor.mk 10 []).run
        ([("a", (2 : Int)), ("b", 1), ("a", 3)].take 0)).table = 0
      ∧ 0 ≤ agetD "a" 0 ((FeatureExtractor.mk 10 []).run
        ([("a", (2 : Int)), ("b", 1), ("a", 3)].take 1)).table
      ∧ agetD "a" 0 ((FeatureExtractor.mk 10 []).run
        ([("a", (2 : Int)), ("b", 1), ("a", 3)].take 1)).table
        ≤ agetD "a" 0 ((FeatureExtractor.mk 10 []).run
        ([("a", (2 : Int)), ("b", 1), ("a", 3)].take 2)).table) :=
  ⟨by decide, C6_counts_monotone 10 _ (by decide) "a" 1⟩

theorem length_insertBy (le : α → α → Bool) (x : α) (l : List α) :
    (insertBy le x l).length = l.length + 1 := by
  induction l with
  | nil => rfl
  | cons y ys ih => by_cases h : le x y <;> simp [insertBy, h, ih]

theorem length_insSortBy (le : α → α → Bool) (l : List α) :
    (insSortBy le l).length = l.length := by
  induction l with
  | nil => rfl
  | cons x xs ih => simp [insSortBy, length_insertBy, ih]

theorem FE_seed_length (l : List (String × Int)) (h0 : List (Int × String)) :
    (l.foldl (fun h p => insertBy (lexLe intLt strLt) (p.2, p.1) h) h0).length
      = h0.length + l.length := by
  induction l generalizing h0 with
  | nil => simp
  | cons p rest ih =>
    rw [List.foldl_cons, ih, length_insertBy, List.length_cons]
    omega

theorem FE_replace_length (l : List (String × Int)) (h0 : List (Int × String)) :
    (l.foldl (fun h p =>
        match h with
        | [] => h
        | top :: rest =>
          if top.1 < p.2 then insertBy (lexLe intLt strLt) (p.2, p.1) rest
          else top :: rest) h0).length = h0.length := by
  induction l generalizing h0 with
  | nil => rfl
  | cons p rest ih =>
    rw [List.foldl_cons, ih]
    cases h0 with
    | nil => rfl
    | cons top r =>
      by_cases hc : top.1 < p.2 <;> simp [hc, length_insertBy]

theorem FeatureExtractor.top_elements_report_length (e : FeatureExtractor) :
    e.top_elements_report.length = min e.count_to_report e.table.length := by
  unfold FeatureExtractor.top_elements_report
  by_cases hlt : e.table.length < e.count_to_report
  · rw [if_pos hlt, length_insSortBy, List.length_map]
    omega
  · rw [if_neg hlt]
    dsimp only
    rw [length_insSortBy, FE_replace_length, FE_seed_length, List.length_take]
    simp only [List.length_nil, Nat.zero_add]

namespace MostActiveIntervalExtractor

theorem move_interval_count (s : MostActiveIntervalExtractor) :
    s.move_interval.count_to_report = s.count_to_report := by
  cases hs : s.start_time <;> simp [move_interval, hs]

theorem move_interval_interval (s : MostActiveIntervalExtractor) :
    s.move_interval.interval = s.interval := by
  cases hs : s.start_time <;> simp [move_interval, hs]

theorem move_interval_heap_le (s : MostActiveIntervalExtractor)
    (h : s.timestamp_heap.length ≤ s.count_to_report) :
    s.move_interval.timestamp_heap.length ≤ s.count_to_report := by
  cases hs : s.start_time with
  | none => simpa [move_interval, hs] using h
  | some w =>
    simp only [move_interval, hs]
    by_cases hlen : s.timestamp_heap.length < s.count_to_report
    · simp [hlen, length_insertBy]
      omega
    · simp only [hlen, if_false]
      cases hh : s.timestamp_heap with
      | nil => simpa [hh] using h
      | cons top rest =>
        rw [hh] at h
        by_cases hc : top.1 < s.request_history.length <;>
          simp [hc, length_insertBy] <;> simpa using h

theorem advanceGo_count (ts : Nat) (fuel : Nat) (s : MostActiveIntervalExtractor) :
    (advanceGo ts fuel s).1.count_to_report = s.count_to_report := by
  induction fuel generalizing s with
  | zero => rfl
  | succ n ih =>
    cases hs : s.start_time with
    | none => simp [advanceGo, hs]
    | some w =>
      by_cases hg : w + s.interval < ts
      · simp only [advanceGo, hs, hg, if_true]
        rw [ih, move_interval_count]
      · simp [advanceGo, hs, hg]

theorem advanceGo_heap_le (ts : Nat) (fuel : Nat) (s : MostActiveIntervalExtractor)
    (h : s.timestamp_heap.length ≤ s.count_to_report) :
    (advanceGo ts fuel s).1.timestamp_heap.length ≤ s.count_to_report := by
  induction fuel generalizing s with
  | zero => exact h
  | succ n ih =>
    cases hs : s.start_time with
    | none => simpa [advanceGo, hs] using h
    | some w =>
      by_cases hg : w + s.interval < ts
      · simp only [advanceGo, hs, hg, if_true]
        have h2 := move_interval_heap_le s h
        rw [← move_interval_count s] at h2 ⊢
        exact ih s.move_interval h2
      · simpa [advanceGo, hs, hg] using h

theorem process_heap_le (ts : Nat) (s : MostActiveIntervalExtractor)
    (h : s.timestamp_heap.length ≤ s.count_to_report) :
    (s.process ts).timestamp_heap.length ≤ s.count_to_report := by
  unfold process processT advanceT
  cases hs : s.start_time with
  | none => exact advanceGo_heap_le ts _ _ h
  | some w => exact advanceGo_heap_le ts _ _ h

theorem drainT_heap_le (n : Nat) (s : MostActiveIntervalExtractor)
    (h : s.timestamp_heap.length ≤ s.count_to_report) :
    (drainT n s).1.timestamp_heap.length ≤ s.count_to_report := by
  induction n generalizing s with
  | zero => exact h
  | succ n ih =>
    by_cases hh : s.request_history = []
    · simpa [drainT, hh] using h
    · simp only [drainT, hh, if_false]
      have h2 := move_interval_heap_le s h
      rw [← move_interval_count s] at h2
      rw [← move_interval_count s]
      exact ih s.move_interval h2

end MostActiveIntervalExtractor

/-- C7: top_elements_report returns exactly min(count_to_report, distinct
keys) entries, never more than count_to_report (for a positive
count_to_report, which spec section 7 requires the driver to enforce; with
count_to_report = 0 and a nonempty table Python raises IndexError instead of
returning); and the candidate heap of MostActiveIntervalExtractor never grows
beyond count_to_report under process or most_active_intervals. -/
theorem C7_bounded_output (e : FeatureExtractor) (hK : 0 < e.count_to_report)
    (s : MostActiveIntervalExtractor) (ts : Nat)
    (hs : s.timestamp_heap.length ≤ s.count_to_report) :
    e.top_elements_report.length = min e.count_to_report e.table.length
    ∧ e.top_elements_report.length ≤ e.count_to_report
    ∧ (s.process ts).timestamp_heap.length ≤ s.count_to_report
    ∧ (s.most_active_intervals).2.timestamp_heap.length ≤ s.count_to_report := by
  refine ⟨FeatureExtractor.top_elements_report_length e, ?_, ?_, ?_⟩
  · rw [FeatureExtractor.top_elements_report_length e]
    omega
  · exact MostActiveIntervalExtractor.process_heap_le ts s hs
  · exact MostActiveIntervalExtractor.drainT_heap_le s.count_to_report s hs

/-- C7 witness: a concrete extractor pair. -/
theorem C7_bounded_output_witness :
    (0 < (2 : Nat))
    ∧ ((MostActiveIntervalExtractor.init 2 10).timestamp_heap.length
        ≤ (MostActiveIntervalExtractor.init 2 10).count_to_report)
    ∧ ((FeatureExtractor.mk 2 [("a", 1)]).top_elements_report.length
        = min 2 (FeatureExtractor.mk 2 [("a", 1)]).table.length
      ∧ (FeatureExtractor.mk 2 [("a", 1)]).top_elements_report.length ≤ 2
      ∧ ((MostActiveIntervalExtractor.init 2 10).process 5).timestamp_heap.length ≤ 2
      ∧ ((MostActiveIntervalExtractor.init 2 10).most_active_intervals).2.timestamp_heap.length ≤ 2) :=
  ⟨by decide, by decide,
    C7_bounded_output (FeatureExtractor.mk 2 [("a", 1)]) (by decide)
      (MostActiveIntervalExtractor.init 2 10) 5 (by decide)⟩

theorem aget_aset_self (k : String) (v : α) (l : List (String × α)) :
    aget k (aset k v l) = some v := by
  induction l with
  | nil => simp [aset, aget]
  | cons p rest ih => by_cases h : p.1 = k <;> simp [aset, aget, h, ih]

/-- C5: with max_attempts 3, failure_window 20 and block_duration 300,
failed logins from one host at t, t+1, t+2 are each allowed; a fourth record
at t+2+299 (any reply code) is denied; a record at any time strictly after
t+2+300 is allowed again. -/
theorem C5_block_boundary (t ts c4 c5 : Nat) (hts : t + 302 < ts) :
    ((AccessViolationDetector.init 3 20 300).processSeq
      [("host", t, 401), ("host", t + 1, 401), ("host", t + 2, 401),
       ("host", t + 301, c4), ("host", ts, c5)]).1
    = [true, true, true, false, true] := by
  have h1 : ¬ (t + 20 < t) := by omega
  have h2 : ¬ (t + 20 < t + 1) := by omega
  have h3 : ¬ (t + 20 < t + 2) := by omega
  have e1 : (AccessViolationDetector.init 3 20 300).process "host" t 401
      = (true, AccessViolationDetector.mk 3 20 300 [("host", [t])] []) := by
    simp [AccessViolationDetector.process, AccessViolationDetector.init,
      aget, agetD, aset, h1]
  have e2 : (AccessViolationDetector.mk 3 20 300 [("host", [t])] []).process
        "host" (t + 1) 401
      = (true, AccessViolationDetector.mk 3 20 300 [("host", [t, t + 1])] []) := by
    simp [AccessViolationDetector.process, aget, agetD, aset, h2]
  have e3 : (AccessViolationDetector.mk 3 20 300 [("host", [t, t + 1])] []).process
        "host" (t + 2) 401
      = (true, AccessViolationDetector.mk 3 20 300
          [("host", [t, t + 1, t + 2])] [("host", t + 2)]) := by
    simp [AccessViolationDetector.process, aget, agetD, aset, h3]
  have e4 : (AccessViolationDetector.mk 3 20 300
        [("host", [t, t + 1, t + 2])] [("host", t + 2)]).process
        "host" (t + 301) c4
      = (false, AccessViolationDetector.mk 3 20 300
          [("host", [t, t + 1, t + 2])] [("host", t + 2)]) := by
    rw [AccessViolationDetector.process_blocked (t + 301) c4
        (show aget "host" (AccessViolationDetector.mk 3 20 300
          [("host", [t, t + 1, t + 2])] [("host", t + 2)]).blocked_hosts
          = some (t + 2) from rfl),
      if_neg (by omega : ¬ t + 2 + 300 < t + 301)]
  have e5 : ((AccessViolationDetector.mk 3 20 300
        [("host", [t, t + 1, t + 2])] [("host", t + 2)]).process "host" ts c5).1
      = true := by
    rw [AccessViolationDetector.process_blocked ts c5
        (show aget "host" (AccessViolationDetector.mk 3 20 300
          [("host", [t, t + 1, t + 2])] [("host", t + 2)]).blocked_hosts
          = some (t + 2) from rfl),
      if_pos (by omega : t + 2 + 300 < ts)]
  simp [AccessViolationDetector.processSeq, e1, e2, e3, e4, e5]

/-- C5 witness: concrete times t = 0, final call at 303. -/
theorem C5_block_boundary_witness :
    ((AccessViolationDetector.init 3 20 300).processSeq
      [("host", 0, 401), ("host", 1, 401), ("host", 2, 401),
       ("host", 301, 200), ("host", 303, 200)]).1
    = [true, true, true, false, true] :=
  C5_block_boundary 0 303 200 200 (by decide)

/-- C9: neither staying blocked, nor clearing an expired block, touches
failed_login_counter; and the 401 branch (including the call that crosses the
threshold and sets the block) stores the accumulated failure timestamps --
the old within-window ones plus the current one -- rather than clearing them,
so failures recorded before a block still count after it expires. -/
theorem C9_frame_failed_counter (d : AccessViolationDetector) (host : String)
    (ts reply : Nat) :
    (∀ bt, aget host d.blocked_hosts = some bt →
      (d.process host ts reply).2.failed_login_counter = d.failed_login_counter)
    ∧ (aget host d.blocked_hosts = none → reply = 401 →
      aget host (d.process host ts reply).2.failed_login_counter
        = some ((agetD host [] d.failed_login_counter ++ [ts]).dropWhile
            (fun t0 => decide (t0 + d.time_interval < ts)))) := by
  constructor
  · intro bt hb
    rw [AccessViolationDetector.process_blocked ts reply hb]
    split_ifs <;> rfl
  · intro hb h401
    subst h401
    unfold AccessViolationDetector.process
    rw [hb]
    dsimp only
    rw [if_pos rfl]
    split_ifs <;> exact aget_aset_self host _ d.failed_login_counter

/-- C9 witness: a blocked host's record leaves the failure lists unchanged. -/
theorem C9_frame_failed_counter_witness :
    ((AccessViolationDetector.mk 3 20 300 [("h", [4, 5])] [("h", 5)]).process
      "h" 7 401).2.failed_login_counter = [("h", [4, 5])] :=
  (C9_frame_failed_counter
    (AccessViolationDetector.mk 3 20 300 [("h", [4, 5])] [("h", 5)])
    "h" 7 401).1 5 (by decide)

/-- C8: top_elements_report only reads the extractor state, so the call
returns the state unchanged and two consecutive calls with no intervening
process call return identical results. -/
theorem C8_report_idempotent (e : FeatureExtractor) :
    e.top_elements_report_call.2 = e
    ∧ (e.top_elements_report_call.2.top_elements_report_call).1
      = e.top_elements_report_call.1 :=
  ⟨rfl, rfl⟩

theorem sorted_dropWhile_filter (a : Nat) (l : List Nat)
    (hl : List.Sorted (· ≤ ·) l) :
    l.dropWhile (fun t => decide (t < a)) = l.filter (fun t => decide (a ≤ t)) := by
  induction l with
  | nil => rfl
  | cons x xs ih =>
    rw [List.sorted_cons] at hl
    by_cases hx : x < a
    · have hax : ¬ a ≤ x := by omega
      simp only [List.dropWhile_cons, List.filter_cons, hx, hax]
      simpa using ih hl.2
    · have hax : a ≤ x := by omega
      simp only [List.dropWhile_cons, List.filter_cons, hx, hax]
      have heq : xs.filter (fun t => decide (a ≤ t)) = xs := by
        apply List.filter_eq_self.mpr
        intro b hb
        have := hl.1 b hb
        simp only [decide_eq_true_eq]
        omega
      simp [heq]

theorem filter_window_cong (w i : Nat) (fed : List Nat)
    (hb : ∀ t ∈ fed.filter (fun t => decide (w ≤ t)), t ≤ w + i) :
    fed.filter (fun t => decide (w ≤ t ∧ t ≤ w + i))
      = fed.filter (fun t => decide (w ≤ t)) := by
  apply List.filter_congr
  intro t ht
  by_cases hw : w ≤ t
  · have htm : t ∈ fed.filter (fun t => decide (w ≤ t)) :=
      List.mem_filter.mpr ⟨ht, by simpa using hw⟩
    have hle := hb t htm
    simp [hw, hle]
  · simp [hw]

theorem filter_succ_filter (w : Nat) (fed : List Nat) :
    (fed.filter (fun t => decide (w ≤ t))).filter (fun t => decide (w + 1 ≤ t))
      = fed.filter (fun t => decide (w + 1 ≤ t)) := by
  rw [List.filter_filter]
  apply List.filter_congr
  intro t _
  by_cases h : w + 1 ≤ t
  · have hw : w ≤ t := by omega
    simp [h, hw]
  · simp [h]

namespace MostActiveIntervalExtractor

theorem move_interval_start (s : MostActiveIntervalExtractor) (w : Nat)
    (hs : s.start_time = some w) :
    s.move_interval.start_time = some (w + 1) := by
  simp [move_interval, hs]

theorem move_interval_history (s : MostActiveIntervalExtractor) (w : Nat)
    (hs : s.start_time = some w) :
    s.move_interval.request_history
      = s.request_history.dropWhile (fun t => decide (t < w + 1)) := by
  simp [move_interval, hs]

theorem move_interval_InvC (fed : List Nat) (s : MostActiveIntervalExtractor)
    (hfed : List.Sorted (· ≤ ·) fed) (hinv : InvC fed s) :
    InvC fed s.move_interval := by
  intro w' hw'
  cases hs : s.start_time with
  | none =>
    rw [show s.move_interval = s from by simp [move_interval, hs]] at hw'
    rw [hw'] at hs
    cases hs
  | some w =>
    obtain ⟨hhist, hbound⟩ := hinv w hs
    have hw1 : w' = w + 1 := by
      rw [move_interval_start s w hs] at hw'
      cases hw'
      rfl
    subst hw1
    have hmh := move_interval_history s w hs
    constructor
    · rw [hmh, hhist, sorted_dropWhile_filter _ _ (hfed.filter _), filter_succ_filter]
    · intro t ht
      rw [hmh] at ht
      have hsub : t ∈ s.request_history := (List.dropWhile_sublist _).subset ht
      have := hbound t hsub
      rw [move_interval_interval]
      omega

theorem advanceGo_InvC (ts : Nat) (fed : List Nat)
    (hfed : List.Sorted (· ≤ ·) fed) :
    ∀ (fuel : Nat) (s : MostActiveIntervalExtractor) (w0 : Nat),
      s.start_time = some w0 → w0 ≤ ts → ts ≤ w0 + fuel → InvC fed s →
      (∃ w1, (advanceGo ts fuel s).1.start_time = some w1 ∧ w1 ≤ ts
         ∧ ts ≤ w1 + s.interval)
      ∧ (advanceGo ts fuel s).1.interval = s.interval
      ∧ InvC fed (advanceGo ts fuel s).1
      ∧ ∀ c ∈ (advanceGo ts fuel s).2,
          c.1 = (fed.filter
            (fun t => decide (c.2 ≤ t ∧ t ≤ c.2 + s.interval))).length := by
  intro fuel
  induction fuel with
  | zero =>
    intro s w0 hs hle hfuel hinv
    exact ⟨⟨w0, hs, hle, by omega⟩, rfl, hinv, by simp [advanceGo]⟩
  | succ n ih =>
    intro s w0 hs hle hfuel hinv
    by_cases hg : w0 + s.interval < ts
    · have hstep : advanceGo ts (n + 1) s
          = ((advanceGo ts n s.move_interval).1,
             s.candidate :: (advanceGo ts n s.move_interval).2) := by
        simp [advanceGo, hs, hg]
      obtain ⟨hhist, hbound⟩ := hinv w0 hs
      have hcand : s.candidate = (s.request_history.length, w0) := by
        simp [candidate, hs]
      have hgood : s.request_history.length
          = (fed.filter
              (fun t => decide (w0 ≤ t ∧ t ≤ w0 + s.interval))).length := by
        rw [hhist, filter_window_cong]
        intro t htm
        exact hbound t (by rw [hhist]; exact htm)
      have hmv_start := move_interval_start s w0 hs
      have hmv_int := move_interval_interval s
      have hinv' := move_interval_InvC fed s hfed hinv
      have hrec := ih s.move_interval (w0 + 1) hmv_start (by omega) (by omega) hinv'
      rw [hstep]
      refine ⟨?_, ?_, hrec.2.2.1, ?_⟩
      · obtain ⟨w1, h1, h2, h3⟩ := hrec.1
        rw [hmv_int] at h3
        exact ⟨w1, h1, h2, h3⟩
      · rw [hrec.2.1, hmv_int]
      · intro c hc
        rcases List.mem_cons.mp hc with hc | hc
        · rw [hc, hcand]
          exact hgood
        · have := hrec.2.2.2 c hc
          rwa [hmv_int] at this
    · have hstop : advanceGo ts (n + 1) s = (s, []) := by
        simp [advanceGo, hs, hg]
      rw [hstop]
      exact ⟨⟨w0, hs, hle, by omega⟩, rfl, hinv, by simp⟩

theorem processT_ok (ts : Nat) (fed : List Nat) (s : MostActiveIntervalExtractor)
    (hfed : List.Sorted (· ≤ ·) (fed ++ [ts])) (hok : StateOk fed s) :
    StateOk (fed ++ [ts]) (processT ts s).1
    ∧ (processT ts s).1.interval = s.interval
    ∧ ∀ c ∈ (processT ts s).2,
        c.1 = (fed.filter
          (fun t => decide (c.2 ≤ t ∧ t ≤ c.2 + s.interval))).length := by
  have hfedL : List.Sorted (· ≤ ·) fed :=
    hfed.sublist (List.sublist_append_left fed [ts])
  have hmax : ∀ t ∈ fed, t ≤ ts := by
    rcases List.pairwise_append.mp hfed with ⟨-, -, h⟩
    exact fun t ht => h t ht ts (by simp)
  cases hs0 : s.start_time with
  | none =>
    obtain ⟨hfedE, hhistE⟩ := hok.2.1 hs0
    have e0 : processT ts s
        = ({ s with
              start_time := some ts
              request_history := s.request_history ++ [ts] }, []) := by
      unfold processT advanceT
      simp [hs0, advanceGo]
    rw [e0]
    subst hfedE
    refine ⟨⟨?_, ?_, ?_⟩, rfl, ?_⟩
    · intro w hw
      cases hw
      constructor
      · simp [hhistE]
      · intro t ht
        simp [hhistE] at ht
        omega
    · intro hnone
      cases hnone
    · intro w hw
      cases hw
      exact ⟨ts, by simp, le_refl ts⟩
    · intro c hc
      cases hc
  | some w0 =>
    obtain ⟨t0, ht0, hwt0⟩ := hok.2.2 w0 hs0
    have hw0ts : w0 ≤ ts := le_trans hwt0 (hmax t0 ht0)
    obtain ⟨⟨w1, hw1s, hw1le, hw1int⟩, hint, hinv1, hcands⟩ :=
      advanceGo_InvC ts fed hfedL (ts - w0) s w0 hs0 hw0ts (by omega) hok.1
    have e1 : processT ts s
        = ({ (advanceGo ts (ts - w0) s).1 with
              request_history :=
                (advanceGo ts (ts - w0) s).1.request_history ++ [ts] },
           (advanceGo ts (ts - w0) s).2) := by
      simp [processT, advanceT, hs0]
    rw [e1]
    obtain ⟨hhist1, hbound1⟩ := hinv1 w1 hw1s
    refine ⟨⟨?_, ?_, ?_⟩, hint, hcands⟩
    · intro w hw
      simp only at hw
      rw [hw1s] at hw
      cases hw
      constructor
      · simp only
        rw [hhist1, List.filter_append]
        simp [hw1le]
      · intro t ht
        simp only at ht ⊢
        rcases List.mem_append.mp ht with ht | ht
        · have := hbound1 t ht
          rw [hint] at this
          rw [hint]
          exact this
        · simp at ht
          rw [hint]
          omega
    · intro hnone
      simp only at hnone
      rw [hw1s] at hnone
      cases hnone
    · intro w hw
      simp only at hw
      rw [hw1s] at hw
      cases hw
      exact ⟨ts, by simp, hw1le⟩

theorem runT_ok (stream : List Nat) :
    ∀ (fed : List Nat) (s : MostActiveIntervalExtractor),
      List.Sorted (· ≤ ·) (fed ++ stream) → StateOk fed s →
      StateOk (fed ++ stream) (runT s fed stream).1
      ∧ (runT s fed stream).1.interval = s.interval
      ∧ ∀ c ∈ (runT s fed stream).2,
          c.1 = ((c.2.2).filter
            (fun t => decide (c.2.1 ≤ t ∧ t ≤ c.2.1 + s.interval))).length := by
  induction stream with
  | nil =>
    intro fed s hs hok
    refine ⟨by simpa using hok, rfl, ?_⟩
    intro c hc
    cases hc
  | cons ts rest ih =>
    intro fed s hs hok
    have hs' : List.Sorted (· ≤ ·) ((fed ++ [ts]) ++ rest) := by
      rwa [List.append_assoc, List.singleton_append]
    have hts : List.Sorted (· ≤ ·) (fed ++ [ts]) :=
      hs'.sublist (List.sublist_append_left (fed ++ [ts]) rest)
    obtain ⟨hok1, hint1, hc1⟩ := processT_ok ts fed s hts hok
    obtain ⟨hok2, hint2, hc2⟩ := ih (fed ++ [ts]) (processT ts s).1 hs' hok1
    have e : runT s fed (ts :: rest)
        = ((runT (processT ts s).1 (fed ++ [ts]) rest).1,
           (processT ts s).2.map (fun c => (c.1, c.2, fed))
             ++ (runT (processT ts s).1 (fed ++ [ts]) rest).2) := rfl
    rw [e]
    refine ⟨?_, ?_, ?_⟩
    · rwa [List.append_assoc, List.singleton_append] at hok2
    · rw [hint2, hint1]
    · intro c hc
      rcases List.mem_append.mp hc with hc | hc
      · obtain ⟨c0, hc0, hceq⟩ := List.mem_map.mp hc
        rw [← hceq]
        exact hc1 c0 hc0
      · have := hc2 c hc
        rwa [hint1] at this

theorem drainT_ok (n : Nat) (fed : List Nat)
    (hfed : List.Sorted (· ≤ ·) fed) :
    ∀ (s : MostActiveIntervalExtractor),
      InvC fed s → (s.start_time = none → s.request_history = []) →
      InvC fed (drainT n s).1
      ∧ ∀ c ∈ (drainT n s).2,
          c.1 = (fed.filter
            (fun t => decide (c.2 ≤ t ∧ t ≤ c.2 + s.interval))).length := by
  induction n with
  | zero =>
    intro s hinv hnone
    exact ⟨hinv, by intro c hc; cases hc⟩
  | succ n ih =>
    intro s hinv hnone
    by_cases hh : s.request_history = []
    · rw [show drainT (n + 1) s = (s, []) from by simp [drainT, hh]]
      exact ⟨hinv, by intro c hc; cases hc⟩
    · rw [show drainT (n + 1) s
          = ((drainT n s.move_interval).1,
             s.candidate :: (drainT n s.move_interval).2) from by
        simp [drainT, hh]]
      cases hs : s.start_time with
      | none => exact absurd (hnone hs) hh
      | some w =>
        obtain ⟨hhist, hbound⟩ := hinv w hs
        have hcand : s.candidate = (s.request_history.length, w) := by
          simp [candidate, hs]
        have hgood : s.request_history.length
            = (fed.filter
                (fun t => decide (w ≤ t ∧ t ≤ w + s.interval))).length := by
          rw [hhist, filter_window_cong]
          intro t htm
          exact hbound t (by rw [hhist]; exact htm)
        have hinv' := move_interval_InvC fed s hfed hinv
        have hnone' : s.move_interval.start_time = none →
            s.move_interval.request_history = [] := by
          intro habs
          rw [move_interval_start s w hs] at habs
          cases habs
        obtain ⟨hinv2, hc2⟩ := ih s.move_interval hinv' hnone'
        refine ⟨hinv2, ?_⟩
        intro c hc
        rcases List.mem_cons.mp hc with hc | hc
        · rw [hc, hcand]
          exact hgood
        · have := hc2 c hc
          rwa [move_interval_interval] at this

end MostActiveIntervalExtractor

/-- C2 counterexample: with duration 2, the sorted stream 0, 2, 5 makes the
first window advance record the candidate (2, 0) over already-processed
timestamps 0 and 2, but the half-open window from 0 to just below 0 + 2
contains only one of them: the code keeps a timestamp landing exactly on
window_start + duration, so the counted window is closed, not half-open. -/
theorem C2_halfopen_counterexample :
    MostActiveIntervalExtractor.runCandidates 1 2 [0, 2, 5]
      = [(2, 0, [0, 2]), (1, 1, [0, 2]), (1, 2, [0, 2]), (1, 3, [0, 2, 5])]
    ∧ List.Sorted (· ≤ ·) [0, 2, 5]
    ∧ (2 : Nat) ≠ ([0, 2].filter
        (fun t => decide ((0 : Nat) ≤ t ∧ t < 0 + 2))).length := by
  refine ⟨by decide, ?_, by decide⟩
  decide

/-- C2 amended: for every non-decreasing stream (and positive
count_to_report, the configuration the spec's driver guarantees), every
candidate (count, window_start) recorded by a window advance, in process or
in the end-of-stream drain, counts exactly the already-processed timestamps
in the closed window from window_start to window_start + duration
inclusive. -/
theorem C2_window_count_closed (cfgK i : Nat) (hK : 0 < cfgK)
    (stream : List Nat) (hsort : List.Sorted (· ≤ ·) stream) :
    ∀ c ∈ MostActiveIntervalExtractor.runCandidates cfgK i stream,
      c.1 = ((c.2.2).filter
        (fun t => decide (c.2.1 ≤ t ∧ t ≤ c.2.1 + i))).length := by
  intro c hc
  unfold MostActiveIntervalExtractor.runCandidates at hc
  dsimp only at hc
  have h0 : MostActiveIntervalExtractor.StateOk []
      (MostActiveIntervalExtractor.init cfgK i) := by
    refine ⟨?_, fun _ => ⟨rfl, rfl⟩, ?_⟩
    · intro w hw
      cases hw
    · intro w hw
      cases hw
  have hsort' : List.Sorted (· ≤ ·) ([] ++ stream) := by simpa using hsort
  obtain ⟨hok, hint, hcands⟩ := MostActiveIntervalExtractor.runT_ok stream []
    (MostActiveIntervalExtractor.init cfgK i) hsort' h0
  rcases List.mem_append.mp hc with hcm | hcm
  · exact hcands c hcm
  · obtain ⟨c0, hc0, hceq⟩ := List.mem_map.mp hcm
    have hokS : MostActiveIntervalExtractor.StateOk stream
        (MostActiveIntervalExtractor.runT
          (MostActiveIntervalExtractor.init cfgK i) [] stream).1 := by
      simpa using hok
    have hnone : (MostActiveIntervalExtractor.runT
          (MostActiveIntervalExtractor.init cfgK i) [] stream).1.start_time = none →
        (MostActiveIntervalExtractor.runT
          (MostActiveIntervalExtractor.init cfgK i) [] stream).1.request_history = [] :=
      fun hn => (hokS.2.1 hn).2
    obtain ⟨-, hdc⟩ := MostActiveIntervalExtractor.drainT_ok cfgK stream hsort _
      hokS.1 hnone
    have hthis := hdc c0 hc0
    rw [hint] at hthis
    rw [← hceq]
    exact hthis

/-- C2 witness: the closed-window count law evaluated on a concrete run. -/
theorem C2_window_count_closed_witness :
    ((0 : Nat) < 1 ∧ List.Sorted (· ≤ ·) [0, 2, 5])
    ∧ ∀ c ∈ MostActiveIntervalExtractor.runCandidates 1 2 [0, 2, 5],
        c.1 = ((c.2.2).filter
          (fun t => decide (c.2.1 ≤ t ∧ t ≤ c.2.1 + 2))).length :=
  ⟨⟨by decide, by decide⟩, C2_window_count_closed 1 2 (by decide) [0, 2, 5] (by decide)⟩

theorem insertBy_perm (le : α → α → Bool) (x : α) (l : List α) :
    List.Perm (insertBy le x l) (x :: l) := by
  induction l with
  | nil => exact List.Perm.refl _
  | cons y ys ih =>
    by_cases h : le x y
    · rw [show insertBy le x (y :: ys) = x :: y :: ys from by simp [insertBy, h]]
    · rw [show insertBy le x (y :: ys) = y :: insertBy le x ys from by
        simp [insertBy, h]]
      exact List.Perm.trans (List.Perm.cons y ih) (List.Perm.swap x y ys)

theorem insertBy_head_cases (le : α → α → Bool) (x : α) (l : List α)
    (top : α) (rest : List α) (h : insertBy le x l = top :: rest) :
    top = x ∨ ∃ l0, l = top :: l0 := by
  cases l with
  | nil =>
    rw [show insertBy le x [] = [x] from rfl] at h
    injection h with h1 h2
    exact Or.inl h1.symm
  | cons y ys =>
    by_cases hle : le x y
    · rw [show insertBy le x (y :: ys) = x :: y :: ys from by simp [insertBy, hle]] at h
      injection h with h1 h2
      exact Or.inl h1.symm
    · rw [show insertBy le x (y :: ys) = y :: insertBy le x ys from by
        simp [insertBy, hle]] at h
      injection h with h1 h2
      exact Or.inr ⟨ys, by rw [h1]⟩

namespace MostActiveIntervalExtractor

theorem drainT_history_nil (n : Nat) (s : MostActiveIntervalExtractor)
    (h : s.request_history = []) : (drainT n s).1 = s := by
  cases n with
  | zero => rfl
  | succ n => simp [drainT, h]

theorem drainT_start_none (n : Nat) :
    ∀ s : MostActiveIntervalExtractor, s.start_time = none →
      (drainT n s).1 = s := by
  induction n with
  | zero => intro s _; rfl
  | succ n ih =>
    intro s h
    by_cases hh : s.request_history = []
    · simp [drainT, hh]
    · have hmv : s.move_interval = s := by simp [move_interval, h]
      rw [show (drainT (n + 1) s).1 = (drainT n s.move_interval).1 from by
        simp [drainT, hh]]
      rw [hmv]
      exact ih s h

theorem move_heap_push (s : MostActiveIntervalExtractor) (w : Nat)
    (hs : s.start_time = some w)
    (hlt : s.timestamp_heap.length < s.count_to_report) :
    s.move_interval.timestamp_heap
      = insertBy (lexLe natLt natLt) (s.request_history.length, w)
          s.timestamp_heap := by
  simp [move_interval, hs, hlt]

theorem move_heap_nil (s : MostActiveIntervalExtractor) (w : Nat)
    (hs : s.start_time = some w)
    (hge : ¬ s.timestamp_heap.length < s.count_to_report)
    (hnil : s.timestamp_heap = []) :
    s.move_interval.timestamp_heap = [] := by
  obtain ⟨cnt, itv, heap, hist, st⟩ := s
  dsimp only at hs hge hnil ⊢
  subst hnil hs
  simp only [move_interval]
  rw [if_neg hge]

theorem move_heap_keep (s : MostActiveIntervalExtractor) (w : Nat)
    (top : Nat × Nat) (rest : List (Nat × Nat)) (hs : s.start_time = some w)
    (hge : ¬ s.timestamp_heap.length < s.count_to_report)
    (hh : s.timestamp_heap = top :: rest)
    (hc : ¬ top.1 < s.request_history.length) :
    s.move_interval.timestamp_heap = s.timestamp_heap := by
  obtain ⟨cnt, itv, heap, hist, st⟩ := s
  dsimp only at hs hge hh hc ⊢
  subst hh hs
  simp only [move_interval]
  rw [if_neg hge]
  simp [hc]

theorem move_heap_replace (s : MostActiveIntervalExtractor) (w : Nat)
    (top : Nat × Nat) (rest : List (Nat × Nat)) (hs : s.start_time = some w)
    (hge : ¬ s.timestamp_heap.length < s.count_to_report)
    (hh : s.timestamp_heap = top :: rest)
    (hc : top.1 < s.request_history.length) :
    s.move_interval.timestamp_heap
      = insertBy (lexLe natLt natLt) (s.request_history.length, w) rest := by
  obtain ⟨cnt, itv, heap, hist, st⟩ := s
  dsimp only at hs hge hh hc ⊢
  subst hh hs
  simp only [move_interval]
  rw [if_neg hge]
  simp [hc]

theorem move_history_length_le (s : MostActiveIntervalExtractor) (w : Nat)
    (hs : s.start_time = some w) :
    s.move_interval.request_history.length ≤ s.request_history.length := by
  rw [move_interval_history s w hs]
  exact (List.dropWhile_sublist _).length_le

theorem drainT_stable (n : Nat) :
    ∀ s : MostActiveIntervalExtractor,
      s.timestamp_heap.length = s.count_to_report → RootGe s →
      (drainT n s).1.timestamp_heap = s.timestamp_heap := by
  induction n with
  | zero => intro s _ _; rfl
  | succ n ih =>
    intro s hlen hroot
    by_cases hh : s.request_history = []
    · simp [drainT, hh]
    · rw [show (drainT (n + 1) s).1 = (drainT n s.move_interval).1 from by
        simp [drainT, hh]]
      cases hs : s.start_time with
      | none =>
        have hmv : s.move_interval = s := by simp [move_interval, hs]
        rw [hmv]
        exact ih s hlen hroot
      | some w =>
        have hge : ¬ s.timestamp_heap.length < s.count_to_report := by omega
        have hml := move_history_length_le s w hs
        cases hheap : s.timestamp_heap with
        | nil =>
          have hm := move_heap_nil s w hs hge hheap
          have h1 : s.move_interval.timestamp_heap.length
              = s.move_interval.count_to_report := by
            rw [hm, move_interval_count]
            rw [hheap] at hlen
            simpa using hlen
          have h2 : RootGe s.move_interval := by
            intro top rest habs
            rw [hm] at habs
            cases habs
          rw [ih s.move_interval h1 h2, hm]
        | cons top rest =>
          have hc : ¬ top.1 < s.request_history.length := by
            have := hroot top rest hheap
            omega
          have hm := move_heap_keep s w top rest hs hge hheap hc
          have h1 : s.move_interval.timestamp_heap.length
              = s.move_interval.count_to_report := by
            rw [hm, move_interval_count, hlen]
          have h2 : RootGe s.move_interval := by
            intro t r htr
            rw [hm, hheap] at htr
            injection htr with ht1 ht2
            subst ht1
            omega
          rw [ih s.move_interval h1 h2, hm]
          exact hheap

theorem drainT_inv (K : Nat) :
    ∀ (r : Nat) (s : MostActiveIntervalExtractor) (w : Nat),
      s.start_time = some w → DrainInv K r s →
      (drainT r s).1.request_history = []
      ∨ ((drainT r s).1.timestamp_heap.length = K
         ∧ (drainT r s).1.count_to_report = K
         ∧ RootGe (drainT r s).1) := by
  intro r
  induction r with
  | zero =>
    intro s w hs hinv
    obtain ⟨hcount, hle, hge, hdisj⟩ := hinv
    have hlen : s.timestamp_heap.length = K := by omega
    have h00 : (drainT 0 s).1 = s := rfl
    right
    rw [h00]
    refine ⟨hlen, hcount, ?_⟩
    rcases hdisj with hroot | hbeat
    · exact hroot
    · have hbeat0 : Beat s = 0 := by omega
      intro top rest hh
      have htop : top ∈ s.timestamp_heap := by
        rw [hh]
        exact List.mem_cons_self top rest
      unfold Beat at hbeat0
      rw [List.countP_eq_zero] at hbeat0
      have := hbeat0 top htop
      simp only [decide_eq_true_eq] at this
      omega
  | succ n ih =>
    intro s w hs hinv
    obtain ⟨hcount, hle, hge, hdisj⟩ := hinv
    by_cases hh : s.request_history = []
    · left
      simp [drainT, hh]
    · rw [show (drainT (n + 1) s).1 = (drainT n s.move_interval).1 from by
        simp [drainT, hh]]
      have hms := move_interval_start s w hs
      have hmc := move_interval_count s
      have hml := move_history_length_le s w hs
      have hinv' : DrainInv K n s.move_interval := by
        by_cases hlt : s.timestamp_heap.length < s.count_to_report
        · have hm := move_heap_push s w hs hlt
          have hlen' : s.move_interval.timestamp_heap.length
              = s.timestamp_heap.length + 1 := by
            rw [hm, length_insertBy]
          refine ⟨hmc.trans hcount, by omega, by omega, ?_⟩
          rcases hdisj with hroot | hbeat
          · left
            intro top rest htr
            rw [hm] at htr
            rcases insertBy_head_cases _ _ _ top rest htr with htop | ⟨l0, hl0⟩
            · rw [htop]
              exact hml
            · exact le_trans hml (hroot top l0 hl0)
          · right
            have hb : Beat s.move_interval ≤ Beat s := by
              unfold Beat
              rw [hm, (insertBy_perm _ _ _).countP_eq, List.countP_cons]
              have hpx : (decide ((s.request_history.length, w).1
                  < s.move_interval.request_history.length)) = false := by
                simp only [decide_eq_false_iff_not]
                omega
              rw [hpx]
              simp only [Bool.false_eq_true, if_false, Nat.add_zero]
              apply List.countP_mono_left
              intro a ha hpa
              simp only [decide_eq_true_eq] at hpa ⊢
              omega
            omega
        · cases hheap : s.timestamp_heap with
          | nil =>
            have hm := move_heap_nil s w hs hlt hheap
            have hK0 : K = 0 := by
              rw [hheap] at hlt
              simp at hlt
              omega
            refine ⟨hmc.trans hcount, ?_, by omega, Or.inl ?_⟩
            · rw [hm]
              simp
            · intro top rest habs
              rw [hm] at habs
              cases habs
          | cons top rest =>
            have hlenK : s.timestamp_heap.length = K := by omega
            by_cases hc : top.1 < s.request_history.length
            · have hm := move_heap_replace s w top rest hs hlt hheap hc
              have hlen0 : s.timestamp_heap.length = rest.length + 1 := by
                rw [hheap]
                rfl
              have hlen' : s.move_interval.timestamp_heap.length = K := by
                rw [hm, length_insertBy]
                omega
              refine ⟨hmc.trans hcount, by omega, by omega, Or.inr ?_⟩
              rcases hdisj with hroot | hbeat
              · exact absurd (hroot top rest hheap) (by omega)
              · have hBs : Beat s
                    = (rest.countP
                        (fun p => decide (p.1 < s.request_history.length))) + 1 := by
                  unfold Beat
                  rw [hheap, List.countP_cons]
                  simp [hc]
                have hBm : Beat s.move_interval
                    ≤ rest.countP
                        (fun p => decide (p.1 < s.request_history.length)) := by
                  unfold Beat
                  rw [hm, (insertBy_perm _ _ _).countP_eq, List.countP_cons]
                  have hpx : (decide ((s.request_history.length, w).1
                      < s.move_interval.request_history.length)) = false := by
                    simp only [decide_eq_false_iff_not]
                    omega
                  rw [hpx]
                  simp only [Bool.false_eq_true, if_false, Nat.add_zero]
                  apply List.countP_mono_left
                  intro a ha hpa
                  simp only [decide_eq_true_eq] at hpa ⊢
                  omega
                omega
            · have hm := move_heap_keep s w top rest hs hlt hheap hc
              refine ⟨hmc.trans hcount, by rw [hm]; exact hle,
                by rw [hm]; omega, Or.inl ?_⟩
              intro t r htr
              rw [hm, hheap] at htr
              injection htr with ht1 ht2
              subst ht1
              omega
      exact ih s.move_interval (w + 1) hms hinv'

theorem mai_result_stable (s : MostActiveIntervalExtractor)
    (hlen : s.timestamp_heap.length ≤ s.count_to_report) :
    (most_active_intervals (most_active_intervals s).2).1
      = (most_active_intervals s).1 := by
  unfold most_active_intervals
  dsimp only
  suffices h : (drainT (drainT s.count_to_report s).1.count_to_report
        (drainT s.count_to_report s).1).1.timestamp_heap
      = (drainT s.count_to_report s).1.timestamp_heap by
    rw [h]
  cases hs : s.start_time with
  | none =>
    have h1 := drainT_start_none s.count_to_report s hs
    rw [h1]
    rw [drainT_start_none s.count_to_report s hs]
  | some w =>
    have hinv0 : DrainInv s.count_to_report s.count_to_report s := by
      refine ⟨rfl, hlen, by omega, Or.inr ?_⟩
      have hb : Beat s ≤ s.timestamp_heap.length := List.countP_le_length _
      omega
    rcases drainT_inv s.count_to_report s.count_to_report s w hs hinv0 with
      hend | ⟨hlen2, hcount2, hroot2⟩
    · rw [drainT_history_nil _ _ hend]
    · exact drainT_stable _ _ (hlen2.trans hcount2.symm) hroot2

end MostActiveIntervalExtractor

/-- C10 counterexample to the claimed existence: for every extractor state
whose candidate heap is within its capacity (every reachable state is, by
C7's bound), two consecutive most_active_intervals calls with no intervening
process call return the same list. -/
theorem C10_consecutive_results_equal :
    ¬ ∃ s : MostActiveIntervalExtractor,
        s.timestamp_heap.length ≤ s.count_to_report
        ∧ (MostActiveIntervalExtractor.most_active_intervals
            (MostActiveIntervalExtractor.most_active_intervals s).2).1
          ≠ (MostActiveIntervalExtractor.most_active_intervals s).1 := by
  rintro ⟨s, hlen, hne⟩
  exact hne (MostActiveIntervalExtractor.mai_result_stable s hlen)

/-- C10 amended: most_active_intervals does mutate the extractor state (it
advances the window up to count_to_report further times, as the concrete
state here shows), but its return value is stable: on every state whose heap
is within capacity, two consecutive calls return equal lists, because drain
candidates have non-increasing counts, so the second call's candidates can
never displace a heap entry. -/
theorem C10_mai_mutates_but_results_stable :
    (MostActiveIntervalExtractor.most_active_intervals
        (MostActiveIntervalExtractor.feed 1 3600 [0, 1])).2
      ≠ MostActiveIntervalExtractor.feed 1 3600 [0, 1]
    ∧ ∀ s : MostActiveIntervalExtractor,
        s.timestamp_heap.length ≤ s.count_to_report →
        (MostActiveIntervalExtractor.most_active_intervals
          (MostActiveIntervalExtractor.most_active_intervals s).2).1
        = (MostActiveIntervalExtractor.most_active_intervals s).1 :=
  ⟨by decide, fun s h => MostActiveIntervalExtractor.mai_result_stable s h⟩

/-- C10 witness: the stability part applied to a concrete state. -/
theorem C10_mai_mutates_witness :
    ((MostActiveIntervalExtractor.feed 2 5 [0, 1, 7]).timestamp_heap.length
      ≤ (MostActiveIntervalExtractor.feed 2 5 [0, 1, 7]).count_to_report)
    ∧ (MostActiveIntervalExtractor.most_active_intervals
        (MostActiveIntervalExtractor.most_active_intervals
          (MostActiveIntervalExtractor.feed 2 5 [0, 1, 7])).2).1
      = (MostActiveIntervalExtractor.most_active_intervals
          (MostActiveIntervalExtractor.feed 2 5 [0, 1, 7])).1 :=
  ⟨by decide, C10_mai_mutates_but_results_stable.2
    (MostActiveIntervalExtractor.feed 2 5 [0, 1, 7]) (by decide)⟩
